import Mathlib

/-!
# Verification of the `hash-rings` library (`jeffrey-xiao/hash-rings-rs`)

Shallow embedding of the seven hash-ring algorithms and the tracking
clients of the repository, together with theorems settling the claims of
the specification against the code.

Modelling conventions:

* Node identifiers, replica indices and points are all `Nat`; the
  caller-supplied hashing primitive (`util::gen_hash`, `util::combine_hash`
  over a pluggable `BuildHasher`) is an external collaborator, so the rings
  are parameterized by a `HashScheme` of arbitrary `Nat`-valued hash
  functions.  Distinct Rust types hashed through the same builder give
  independent functions, hence separate fields.
* Rust `BTreeMap`/`HashMap` are modelled as `AList` (finite maps as
  key-nodup association lists); where the code iterates, the iteration
  result is order-independent (maxima over distinct keys, per-entry
  updates), which is proved or used accordingly.
* `u64` arithmetic is `Nat` with `% 2^64` where wrap-around matters.
* Panics are modelled with `Option`/`Except`: a `none`/`error` result is a
  panic of the corresponding Rust operation.
-/

namespace HashRings

/-- The hashing primitive, an external collaborator of the library:
`hashNode`, `hashRep`, `hashPoint` model `util::gen_hash` applied to node
ids, replica indices, and points respectively; `combine` models
`util::combine_hash`.  `hashA`, `hashB` model the two derived keyed hashers
used by the MPC ring. -/
structure HashScheme where
  hashNode : Nat → Nat
  hashRep : Nat → Nat
  hashPoint : Nat → Nat
  combine : Nat → Nat → Nat
  hashA : Nat → Nat
  hashB : Nat → Nat

/-- The replica hash of node `id`, replica index `r`:
`util::combine_hash(&hb, util::gen_hash(&hb, id), util::gen_hash(&hb, &r))`. -/
def HashScheme.chash (hs : HashScheme) (id r : Nat) : Nat :=
  hs.combine (hs.hashNode id) (hs.hashRep r)

/-- Finite map `Nat → Nat`, the model of `BTreeMap<u64, id>` and
`HashMap<id, usize>`. -/
abbrev NMap := AList (fun _ : Nat => Nat)

/-- Smallest key `≥ h` of a key list: `BTreeMap::range(h..).next()`. -/
def minGe (keys : List Nat) (h : Nat) : Option Nat :=
  (keys.filter (fun k => h ≤ k)).min?

/-- Smallest key of a key list: `BTreeMap::iter().next()` (sorted order). -/
def minKey (keys : List Nat) : Option Nat :=
  keys.min?

/-- The successor key with wrap-around:
`range(h..).next().or_else(|| iter().next())`. -/
def succKey (keys : List Nat) (h : Nat) : Option Nat :=
  (minGe keys h).orElse (fun _ => minKey keys)

theorem minGe_mem {keys : List Nat} {h k : Nat} (hk : minGe keys h = some k) :
    k ∈ keys := by
  have := List.min?_mem (α := Nat) (fun a b => min_choice a b) hk
  exact List.mem_of_mem_filter this

theorem minKey_mem {keys : List Nat} {k : Nat} (hk : minKey keys = some k) :
    k ∈ keys :=
  List.min?_mem (α := Nat) (fun a b => min_choice a b) hk

theorem succKey_mem {keys : List Nat} {h k : Nat} (hk : succKey keys h = some k) :
    k ∈ keys := by
  unfold succKey at hk
  rcases ho : minGe keys h with _ | k'
  · rw [ho] at hk
    simp only [Option.orElse] at hk
    exact minKey_mem hk
  · rw [ho] at hk
    simp only [Option.orElse] at hk
    cases hk
    exact minGe_mem ho

theorem succKey_isSome_of_ne_nil {keys : List Nat} (hne : keys ≠ []) (h : Nat) :
    (succKey keys h).isSome := by
  unfold succKey
  rcases ho : minGe keys h with _ | k'
  · simp only [Option.orElse]
    unfold minKey
    rcases hk : keys.min? with _ | m
    · exact absurd (List.min?_eq_none_iff.mp hk) hne
    · rfl
  · rfl

/-- A concrete hash scheme realizable by a caller-supplied `BuildHasher`
(the repository's own tests use custom hashers): identity hashes with the
injective pairing function as `combine`. -/
def hs₀ : HashScheme :=
  ⟨fun x => x, fun x => x, fun x => x, Nat.pair, fun x => x, fun x => x⟩

/-- The panics a tracking client's `remove_node` can raise:
`Error: empty ring after deletion.` or one of the inner `.expect`s /
index panics. -/
inductive Panic where
  | emptyRingAfterRemoval : Panic
  | other : Panic
deriving DecidableEq

namespace consistent

/-- `consistent::Ring`: the wheel `nodes : BTreeMap<u64, &T>` and the
replica-count table `replicas : HashMap<&T, usize>`. -/
structure Ring where
  nodes : NMap
  replicas : NMap

/-- The empty ring (`Ring::new`). -/
def Ring.empty : Ring := ⟨∅, ∅⟩

/-- Inner fold of `Ring::insert_node`: for `i in 0..replicas`,
`self.nodes.insert(combine_hash(gen_hash(id), gen_hash(i)), id)`. -/
def insertHashes (hs : HashScheme) (id reps : Nat) (m : NMap) : NMap :=
  (List.range reps).foldl (fun acc i => acc.insert (hs.chash id i) id) m

/-- `consistent::Ring::insert_node`. -/
def Ring.insertNode (hs : HashScheme) (r : Ring) (id reps : Nat) : Ring :=
  { nodes := insertHashes hs id reps r.nodes
    replicas := r.replicas.insert id reps }

/-- Inner fold of `Ring::remove_node`: for `i in 0..replicas[id]`, delete
the wheel entry at the replica hash only if it currently holds `id`. -/
def removeHashes (hs : HashScheme) (id reps : Nat) (m : NMap) : NMap :=
  (List.range reps).foldl
    (fun acc i =>
      let h := hs.chash id i
      if acc.lookup h = some id then acc.erase h else acc)
    m

/-- `consistent::Ring::remove_node`.  `none` models the panic of the
`self.replicas[id]` index when `id` is absent. -/
def Ring.removeNode (hs : HashScheme) (r : Ring) (id : Nat) : Option Ring :=
  match r.replicas.lookup id with
  | none => none
  | some reps =>
      some { nodes := removeHashes hs id reps r.nodes
             replicas := r.replicas.erase id }

/-- `consistent::Ring::get_next_node`: first wheel entry with key `≥ hash`,
else the smallest entry. -/
def Ring.getNextNode (r : Ring) (h : Nat) : Option Nat :=
  (succKey r.nodes.keys h).bind (fun k => r.nodes.lookup k)

/-- `consistent::Ring::get_node`; `none` models the empty-ring panic. -/
def Ring.getNode (hs : HashScheme) (r : Ring) (p : Nat) : Option Nat :=
  r.getNextNode (hs.hashPoint p)

/-- `consistent::Ring::len` (number of entries of `replicas`). -/
def Ring.len (r : Ring) : Nat := r.replicas.entries.length

/-- `consistent::Ring::is_empty` (`replicas.is_empty()`). -/
def Ring.isEmpty (r : Ring) : Bool := r.replicas.entries.isEmpty

theorem lookup_insertHashes (hs : HashScheme) (id reps : Nat) (m : NMap) (k : Nat) :
    (insertHashes hs id reps m).lookup k =
      if ∃ i < reps, k = hs.chash id i then some id else m.lookup k := by
  induction reps with
  | zero => simp [insertHashes]
  | succ n ih =>
      have hstep : insertHashes hs id (n + 1) m =
          (insertHashes hs id n m).insert (hs.chash id n) id := by
        simp [insertHashes, List.range_succ]
      rw [hstep]
      by_cases hk : k = hs.chash id n
      · subst hk
        rw [AList.lookup_insert]
        have : ∃ i < n + 1, hs.chash id n = hs.chash id i := ⟨n, Nat.lt_succ_self n, rfl⟩
        rw [if_pos this]
      · rw [AList.lookup_insert_ne hk, ih]
        by_cases hex : ∃ i < n, k = hs.chash id i
        · obtain ⟨i, hi, hki⟩ := hex
          rw [if_pos ⟨i, hi, hki⟩, if_pos ⟨i, Nat.lt_succ_of_lt hi, hki⟩]
        · rw [if_neg hex, if_neg]
          rintro ⟨i, hi, hki⟩
          rcases Nat.lt_succ_iff_lt_or_eq.mp hi with hlt | rfl
          · exact hex ⟨i, hlt, hki⟩
          · exact hk hki

theorem lookup_removeHashes (hs : HashScheme) (id reps : Nat) (m : NMap) (k : Nat) :
    (removeHashes hs id reps m).lookup k =
      if (∃ i < reps, k = hs.chash id i) ∧ m.lookup k = some id then none
      else m.lookup k := by
  induction reps with
  | zero => simp [removeHashes]
  | succ n ih =>
      have hstep : removeHashes hs id (n + 1) m =
          (let h := hs.chash id n
           if (removeHashes hs id n m).lookup h = some id then
             (removeHashes hs id n m).erase h
           else removeHashes hs id n m) := by
        simp [removeHashes, List.range_succ]
      rw [hstep]
      simp only []
      set M := removeHashes hs id n m with hM
      by_cases hcond : (∃ i < n + 1, k = hs.chash id i) ∧ m.lookup k = some id
      · rw [if_pos hcond]
        obtain ⟨⟨i, hi, hki⟩, hmk⟩ := hcond
        by_cases hex : ∃ i < n, k = hs.chash id i
        · -- already removed by an earlier iteration
          have hMk : M.lookup k = none := by rw [ih, if_pos ⟨hex, hmk⟩]
          by_cases hh : M.lookup (hs.chash id n) = some id
          · rw [if_pos hh]
            by_cases hkh : k = hs.chash id n
            · subst hkh; exact AList.lookup_erase _ _
            · rw [AList.lookup_erase_ne hkh]; exact hMk
          · rw [if_neg hh]; exact hMk
        · -- removed exactly at iteration n
          have hkn : k = hs.chash id n := by
            rcases Nat.lt_succ_iff_lt_or_eq.mp hi with hlt | rfl
            · exact absurd ⟨i, hlt, hki⟩ hex
            · exact hki
          have hMk : M.lookup k = some id := by rw [ih, if_neg (fun h => hex h.1)]; exact hmk
          rw [← hkn, if_pos hMk]
          exact AList.lookup_erase _ _
      · rw [if_neg hcond]
        have hnex : ¬((∃ i < n, k = hs.chash id i) ∧ m.lookup k = some id) := by
          rintro ⟨⟨i, hi, hki⟩, hmk⟩
          exact hcond ⟨⟨i, Nat.lt_succ_of_lt hi, hki⟩, hmk⟩
        have hMk : M.lookup k = m.lookup k := by rw [ih, if_neg hnex]
        by_cases hh : M.lookup (hs.chash id n) = some id
        · rw [if_pos hh]
          by_cases hkh : k = hs.chash id n
          · -- k is the hash of replica n but the wheel does not hold id there
            subst hkh
            have : m.lookup (hs.chash id n) ≠ some id := by
              intro hsome
              exact hcond ⟨⟨n, Nat.lt_succ_self n, rfl⟩, hsome⟩
            rw [hMk] at hh
            exact absurd hh this
          · rw [AList.lookup_erase_ne hkh]; exact hMk
        · rw [if_neg hh]; exact hMk

theorem insertNode_nodes (hs : HashScheme) (r : Ring) (id reps : Nat) :
    (r.insertNode hs id reps).nodes = insertHashes hs id reps r.nodes := rfl

theorem insertNode_replicas (hs : HashScheme) (r : Ring) (id reps : Nat) :
    (r.insertNode hs id reps).replicas = r.replicas.insert id reps := rfl

theorem removeNode_eq {hs : HashScheme} {r : Ring} {id : Nat} {r' : Ring}
    (h : r.removeNode hs id = some r') :
    ∃ reps, r.replicas.lookup id = some reps ∧
      r'.nodes = removeHashes hs id reps r.nodes ∧
      r'.replicas = r.replicas.erase id := by
  unfold Ring.removeNode at h
  rcases hR : r.replicas.lookup id with _ | reps
  · rw [hR] at h; cases h
  · rw [hR] at h
    cases h
    exact ⟨reps, rfl, rfl, rfl⟩

/-- C4: `consistent::Ring::remove_node(id)` for a node present with `R`
replicas deletes from the wheel exactly those of `id`'s `R` replica hashes
whose entry currently holds `id` (an entry holding another node is kept),
deletes `id`'s entry in the replica table, and leaves every other wheel
entry and replica count unchanged. -/
theorem consistent_removeNode_frame (hs : HashScheme) (r : Ring) (id R : Nat)
    (hR : r.replicas.lookup id = some R) :
    ∃ r', r.removeNode hs id = some r' ∧
      (∀ k, ((∃ i < R, k = hs.chash id i) ∧ r.nodes.lookup k = some id →
          r'.nodes.lookup k = none) ∧
        (¬((∃ i < R, k = hs.chash id i) ∧ r.nodes.lookup k = some id) →
          r'.nodes.lookup k = r.nodes.lookup k)) ∧
      r'.replicas.lookup id = none ∧
      (∀ id', id' ≠ id → r'.replicas.lookup id' = r.replicas.lookup id') := by
  refine ⟨{ nodes := removeHashes hs id R r.nodes, replicas := r.replicas.erase id },
    ?_, ?_, ?_, ?_⟩
  · unfold Ring.removeNode
    rw [hR]
  · intro k
    constructor
    · intro hcond
      show (removeHashes hs id R r.nodes).lookup k = none
      rw [lookup_removeHashes, if_pos hcond]
    · intro hcond
      show (removeHashes hs id R r.nodes).lookup k = r.nodes.lookup k
      rw [lookup_removeHashes, if_neg hcond]
  · exact AList.lookup_erase _ _
  · exact fun id' hne => AList.lookup_erase_ne hne

/-- The concrete ring used by witnesses: nodes `1` (one replica) and `2`
(two replicas) under `hs₀`. -/
def cring₁ : Ring := (Ring.empty.insertNode hs₀ 1 1).insertNode hs₀ 2 2

/-- Witness for `consistent_removeNode_frame` at a concrete ring. -/
theorem consistent_removeNode_frame_witness :
    cring₁.replicas.lookup 2 = some 2 ∧
      (∃ r', cring₁.removeNode hs₀ 2 = some r' ∧
        (∀ k, ((∃ i < 2, k = hs₀.chash 2 i) ∧ cring₁.nodes.lookup k = some 2 →
            r'.nodes.lookup k = none) ∧
          (¬((∃ i < 2, k = hs₀.chash 2 i) ∧ cring₁.nodes.lookup k = some 2) →
            r'.nodes.lookup k = cring₁.nodes.lookup k)) ∧
        r'.replicas.lookup 2 = none ∧
        (∀ id', id' ≠ 2 → r'.replicas.lookup id' = cring₁.replicas.lookup id')) :=
  ⟨by decide, consistent_removeNode_frame hs₀ cring₁ 2 2 (by decide)⟩

/-- C2 counterexample: after `insert_node(1,1); insert_node(2,2);
insert_node(2,1); remove_node(2)` the ring is non-empty (`is_empty` is
`false`, node `2` absent from `replicas`), yet `get_node(7)` returns the
removed node `2`: a stale wheel entry of the re-inserted node survives. -/
theorem consistent_getNode_returns_absent_node :
    ((((Ring.empty.insertNode hs₀ 1 1).insertNode hs₀ 2 2).insertNode hs₀ 2 1).removeNode
        hs₀ 2).map
      (fun r => (r.getNode hs₀ 7, r.replicas.lookup 2, r.isEmpty)) =
    some (some 2, none, false) := by decide

/-- Injectivity of the replica-hash scheme: distinct `(node, replica)`
pairs have distinct combined hashes. -/
def InjHash (hs : HashScheme) : Prop :=
  ∀ a b a' b', hs.chash a b = hs.chash a' b' → a = a' ∧ b = b'

/-- One mutation step of a `consistent::Ring`, restricted to inserting
fresh nodes with at least one replica; removals are those that do not
panic. -/
inductive Step (hs : HashScheme) : Ring → Ring → Prop
  | insert (r : Ring) (id reps : Nat) (hfresh : r.replicas.lookup id = none)
      (hreps : 1 ≤ reps) : Step hs r (r.insertNode hs id reps)
  | remove (r r' : Ring) (id : Nat) (h : r.removeNode hs id = some r') : Step hs r r'

/-- Rings reachable from the empty ring. -/
def Reachable (hs : HashScheme) (r : Ring) : Prop :=
  Relation.ReflTransGen (Step hs) Ring.empty r

/-- The wheel/replica-table coherence invariant of a `consistent::Ring`. -/
def WF (hs : HashScheme) (r : Ring) : Prop :=
  (∀ k v, r.nodes.lookup k = some v →
    ∃ reps, r.replicas.lookup v = some reps ∧ ∃ i, i < reps ∧ k = hs.chash v i) ∧
  (∀ id reps, r.replicas.lookup id = some reps →
    1 ≤ reps ∧ ∀ i, i < reps → r.nodes.lookup (hs.chash id i) = some id)

theorem WF_empty (hs : HashScheme) : WF hs Ring.empty := by
  constructor
  · intro k v h
    simp [Ring.empty, AList.lookup] at h
  · intro id reps h
    simp [Ring.empty, AList.lookup] at h

theorem WF_insert (hs : HashScheme) (hinj : InjHash hs) {r : Ring} (hwf : WF hs r)
    (id reps : Nat) (hfresh : r.replicas.lookup id = none) (hreps : 1 ≤ reps) :
    WF hs (r.insertNode hs id reps) := by
  obtain ⟨hfwd, hbwd⟩ := hwf
  constructor
  · intro k v hkv
    rw [insertNode_nodes, lookup_insertHashes] at hkv
    by_cases hex : ∃ i < reps, k = hs.chash id i
    · rw [if_pos hex] at hkv
      cases hkv
      obtain ⟨i, hi, hki⟩ := hex
      exact ⟨reps, by rw [insertNode_replicas]; exact AList.lookup_insert _, i, hi, hki⟩
    · rw [if_neg hex] at hkv
      obtain ⟨reps', hrep', i, hi, hki⟩ := hfwd k v hkv
      have hvne : v ≠ id := by
        rintro rfl
        rw [hfresh] at hrep'
        cases hrep'
      refine ⟨reps', ?_, i, hi, hki⟩
      rw [insertNode_replicas, AList.lookup_insert_ne hvne]
      exact hrep'
  · intro id' reps' hrep'
    rw [insertNode_replicas] at hrep'
    by_cases hid : id' = id
    · subst hid
      rw [AList.lookup_insert] at hrep'
      cases hrep'
      refine ⟨hreps, fun i hi => ?_⟩
      rw [insertNode_nodes, lookup_insertHashes, if_pos ⟨i, hi, rfl⟩]
    · rw [AList.lookup_insert_ne hid] at hrep'
      obtain ⟨h1, h2⟩ := hbwd id' reps' hrep'
      refine ⟨h1, fun i hi => ?_⟩
      rw [insertNode_nodes, lookup_insertHashes, if_neg, h2 i hi]
      rintro ⟨j, hj, hcol⟩
      exact hid (hinj id' i id j hcol).1

theorem WF_remove (hs : HashScheme) (hinj : InjHash hs) {r r' : Ring} (hwf : WF hs r)
    (id : Nat) (hrm : r.removeNode hs id = some r') : WF hs r' := by
  obtain ⟨hfwd, hbwd⟩ := hwf
  obtain ⟨reps, hR, hn, hrep⟩ := removeNode_eq hrm
  constructor
  · intro k v hkv
    rw [hn, lookup_removeHashes] at hkv
    by_cases hcond : (∃ i < reps, k = hs.chash id i) ∧ r.nodes.lookup k = some id
    · rw [if_pos hcond] at hkv; cases hkv
    · rw [if_neg hcond] at hkv
      obtain ⟨reps', hrep', i, hi, hki⟩ := hfwd k v hkv
      have hvne : v ≠ id := by
        rintro rfl
        rw [hR] at hrep'
        cases hrep'
        exact hcond ⟨⟨i, hi, hki⟩, hkv⟩
      refine ⟨reps', ?_, i, hi, hki⟩
      rw [hrep, AList.lookup_erase_ne hvne]
      exact hrep'
  · intro id' reps' hrep'
    rw [hrep] at hrep'
    have hid : id' ≠ id := by
      rintro rfl
      rw [AList.lookup_erase] at hrep'
      cases hrep'
    rw [AList.lookup_erase_ne hid] at hrep'
    obtain ⟨h1, h2⟩ := hbwd id' reps' hrep'
    refine ⟨h1, fun i hi => ?_⟩
    rw [hn, lookup_removeHashes, if_neg, h2 i hi]
    rintro ⟨⟨j, hj, hcol⟩, _⟩
    exact hid (hinj id' i id j hcol).1

theorem WF_step (hs : HashScheme) (hinj : InjHash hs) {r r' : Ring}
    (hwf : WF hs r) (hstep : Step hs r r') : WF hs r' := by
  cases hstep
  case insert nid reps hfresh hreps => exact WF_insert hs hinj hwf nid reps hfresh hreps
  case remove nid hrm => exact WF_remove hs hinj hwf nid hrm

theorem WF_reachable (hs : HashScheme) (hinj : InjHash hs) {r : Ring}
    (hr : Reachable hs r) : WF hs r := by
  induction hr with
  | refl => exact WF_empty hs
  | tail _ hstep ih => exact WF_step hs hinj ih hstep

/-- C2 (amended): for rings reachable by inserting only *fresh* nodes with
at least one replica and removing present nodes, under an injective
replica-hash scheme, `get_node` on a non-empty ring returns a node
currently present in the ring, for every point. -/
theorem consistent_getNode_closure (hs : HashScheme) (hinj : InjHash hs) (r : Ring)
    (hr : Reachable hs r) (hne : r.isEmpty = false) (p : Nat) :
    ∃ id, r.getNode hs p = some id ∧ ∃ reps, r.replicas.lookup id = some reps := by
  obtain ⟨hfwd, hbwd⟩ := WF_reachable hs hinj hr
  -- the replica table is non-empty, so some node with ≥ 1 replica exists
  have hents : r.replicas.entries ≠ [] := by
    intro h
    rw [Ring.isEmpty, h] at hne
    cases hne
  obtain ⟨e, he⟩ := List.exists_mem_of_ne_nil _ hents
  obtain ⟨a, b⟩ := e
  have hlk : r.replicas.lookup a = some b :=
    Option.mem_def.mp (AList.mem_lookup_iff.mpr he)
  obtain ⟨hreps, hall⟩ := hbwd a b hlk
  -- hence the wheel is non-empty
  have hmem : hs.chash a 0 ∈ r.nodes.keys := by
    rw [← AList.mem_keys, ← AList.lookup_isSome, hall 0 hreps]
    rfl
  have hkeys : r.nodes.keys ≠ [] := fun h => by rw [h] at hmem; cases hmem
  have hsucc := succKey_isSome_of_ne_nil hkeys (hs.hashPoint p)
  rcases hk : succKey r.nodes.keys (hs.hashPoint p) with _ | k
  · rw [hk] at hsucc; cases hsucc
  · have hkmem : k ∈ r.nodes.keys := succKey_mem hk
    have : (r.nodes.lookup k).isSome := by
      rw [AList.lookup_isSome, AList.mem_keys]
      exact hkmem
    rcases hv : r.nodes.lookup k with _ | v
    · rw [hv] at this; cases this
    · obtain ⟨reps, hrep, _⟩ := hfwd k v hv
      refine ⟨v, ?_, reps, hrep⟩
      rw [Ring.getNode, Ring.getNextNode, hk]
      exact hv

/-- Witness for `consistent_getNode_closure`: a two-node ring built by
fresh inserts, with the injective scheme `hs₀` restricted to small ids. -/
theorem consistent_getNode_closure_witness :
    ∃ id, ((Ring.empty.insertNode hs₀ 1 2).insertNode hs₀ 2 1).getNode hs₀ 7 = some id ∧
      ∃ reps, ((Ring.empty.insertNode hs₀ 1 2).insertNode hs₀ 2 1).replicas.lookup id =
        some reps := by
  refine consistent_getNode_closure hs₀ ?_ _ ?_ (by decide) 7
  · intro a b a' b' h
    simp only [HashScheme.chash, hs₀] at h
    exact Nat.pair_eq_pair.mp h
  · exact Relation.ReflTransGen.tail
      (Relation.ReflTransGen.tail Relation.ReflTransGen.refl
        (Step.insert Ring.empty 1 2 (by decide) (by decide)))
      (Step.insert _ 2 1 (by decide) (by decide))

end consistent

namespace rendezvous

/-- `rendezvous::Ring`: `nodes : HashMap<&T, Vec<u64>>` mapping each node
to its precomputed replica hashes. -/
structure Ring where
  nodes : AList (fun _ : Nat => List Nat)

/-- The empty ring (`Ring::new`). -/
def Ring.empty : Ring := ⟨∅⟩

/-- The replica hashes stored for a node:
`(0..replicas).map(|i| combine_hash(gen_hash(id), gen_hash(i)))`. -/
def repHashes (hs : HashScheme) (id reps : Nat) : List Nat :=
  (List.range reps).map (fun i => hs.chash id i)

/-- `rendezvous::Ring::insert_node`. -/
def Ring.insertNode (hs : HashScheme) (r : Ring) (id reps : Nat) : Ring :=
  ⟨r.nodes.insert id (repHashes hs id reps)⟩

/-- `rendezvous::Ring::remove_node`. -/
def Ring.removeNode (r : Ring) (id : Nat) : Ring :=
  ⟨r.nodes.erase id⟩

/-- `rendezvous::Ring::is_empty`. -/
def Ring.isEmpty (r : Ring) : Bool := r.nodes.entries.isEmpty

/-- `rendezvous::Ring::get_hashes` (`self.nodes[id].clone()`; `none`
models the index panic for an absent node). -/
def Ring.getHashes (r : Ring) (id : Nat) : Option (List Nat) :=
  r.nodes.lookup id

/-- A node's score against a point hash:
`hashes.iter().map(|h| combine_hash(h, point_hash)).max()`; `none` is the
`.expect` panic on an empty replica list. -/
def nodeScore (hs : HashScheme) (hashes : List Nat) (ph : Nat) : Option Nat :=
  (hashes.map (fun h => hs.combine h ph)).max?

/-- The per-node `(max replica score, id)` pairs used by
`Ring::get_node`, in entry order; `none` if some node's replica list is
empty (the inner `.expect` panic). -/
def scoreEntries (hs : HashScheme) (ph : Nat) :
    List (Sigma (fun _ : Nat => List Nat)) → Option (List (Nat × Nat))
  | [] => some []
  | e :: rest =>
      match nodeScore hs e.2 ph with
      | none => none
      | some s => (scoreEntries hs ph rest).map (fun l => (s, e.1) :: l)

/-- Rust `Iterator::max` on `(u64, &T)` pairs under the lexicographic
order; all pairs have distinct ids, so the result does not depend on the
iteration order of the backing `HashMap`. -/
def lexMaxFold (l : List (Nat × Nat)) : Option (Nat × Nat) :=
  l.foldl
    (fun acc x =>
      match acc with
      | none => some x
      | some a => if a.1 < x.1 ∨ (a.1 = x.1 ∧ a.2 < x.2) then some x else some a)
    none

/-- `rendezvous::Ring::get_node`; `none` models the empty-ring panic (and
the empty-replica-list panic). -/
def Ring.getNode (hs : HashScheme) (r : Ring) (p : Nat) : Option Nat :=
  let ph := hs.hashPoint p
  (scoreEntries hs ph r.nodes.entries).bind (fun l => (lexMaxFold l).map (fun m => m.2))

/-- `HashSet::insert`: add an element to a duplicate-free list bucket. -/
def slInsert (l : List Nat) (x : Nat) : List Nat := if x ∈ l then l else x :: l

/-- `rendezvous::Client`: the ring plus the per-node point buckets
(`HashSet`s, modelled as duplicate-free lists) and the per-point
`(assigned node, stored score)` table. -/
structure Client where
  ring : Ring
  nodes : AList (fun _ : Nat => List Nat)
  points : AList (fun _ : Nat => Nat × Nat)

/-- The empty client (`Client::new`). -/
def Client.empty : Client := ⟨Ring.empty, ∅, ∅⟩

/-- One tracked point's examination inside
`rendezvous::Client::insert_node`: move the point to the new node exactly
when its score against the new node strictly exceeds its stored score. -/
def moveToNew (hs : HashScheme) (id : Nat) (hashes : List Nat)
    (st : AList (fun _ : Nat => List Nat) × AList (fun _ : Nat => Nat × Nat) × List Nat)
    (e : Sigma (fun _ : Nat => Nat × Nat)) :
    Option (AList (fun _ : Nat => List Nat) × AList (fun _ : Nat => Nat × Nat) × List Nat) :=
  match nodeScore hs hashes (hs.hashPoint e.1) with
  | none => none
  | some ms =>
      if e.2.2 < ms then
        match st.1.lookup e.2.1 with
        | none => none
        | some b =>
            some (st.1.insert e.2.1 (b.erase e.1), st.2.1.insert e.1 (id, ms),
              slInsert st.2.2 e.1)
      else some st

/-- `rendezvous::Client::insert_node`: insert into the ring, then move
every tracked point whose score against the new node strictly exceeds its
stored score; the new node's bucket becomes exactly the moved points. -/
def Client.insertNode (hs : HashScheme) (cl : Client) (id reps : Nat) : Option Client :=
  let r' := cl.ring.insertNode hs id reps
  let hashes := repHashes hs id reps
  (cl.points.entries.foldlM (moveToNew hs id hashes)
      (cl.nodes, cl.points, ([] : List Nat))).map
    (fun st => ⟨r', st.1.insert id st.2.2, st.2.1⟩)

/-- `rendezvous::Client::insert_point`. -/
def Client.insertPoint (hs : HashScheme) (cl : Client) (p : Nat) : Option Client :=
  match cl.ring.getNode hs p with
  | none => none
  | some n =>
      match cl.ring.getHashes n with
      | none => none
      | some hashes =>
          match nodeScore hs hashes (hs.hashPoint p) with
          | none => none
          | some ms =>
              match cl.nodes.lookup n with
              | none => none
              | some b =>
                  some ⟨cl.ring, cl.nodes.insert n (slInsert b p), cl.points.insert p (n, ms)⟩

/-- `rendezvous::Client::remove_point`. -/
def Client.removePoint (hs : HashScheme) (cl : Client) (p : Nat) : Option Client :=
  match cl.ring.getNode hs p with
  | none => none
  | some n =>
      match cl.nodes.lookup n with
      | none => none
      | some b => some ⟨cl.ring, cl.nodes.insert n (b.erase p), cl.points.erase p⟩

/-- One orphaned point's reassignment step inside
`rendezvous::Client::remove_node`. -/
def reassignPoint (hs : HashScheme) (r' : Ring)
    (st : AList (fun _ : Nat => List Nat) × AList (fun _ : Nat => Nat × Nat)) (p : Nat) :
    Except Panic (AList (fun _ : Nat => List Nat) × AList (fun _ : Nat => Nat × Nat)) :=
  match r'.getNode hs p with
  | none => .error .other
  | some nn =>
      match r'.getHashes nn with
      | none => .error .other
      | some hashes =>
          match nodeScore hs hashes (hs.hashPoint p) with
          | none => .error .other
          | some ms =>
              match st.1.lookup nn with
              | none => .error .other
              | some b => .ok (st.1.insert nn (slInsert b p), st.2.insert p (nn, ms))

/-- `rendezvous::Client::remove_node`: drop the node from the ring, panic
with `Error: empty ring after deletion.` if that empties the ring, then
reassign every orphaned point through the ring. -/
def Client.removeNode (hs : HashScheme) (cl : Client) (id : Nat) : Except Panic Client :=
  let r' := cl.ring.removeNode id
  if r'.isEmpty then .error .emptyRingAfterRemoval
  else
    match cl.nodes.lookup id with
    | none => .ok ⟨r', cl.nodes.erase id, cl.points⟩
    | some pts =>
        (pts.foldlM (reassignPoint hs r') (cl.nodes.erase id, cl.points)).map
          (fun st => ⟨r', st.1, st.2⟩)

/-- C1, concrete failing run: on the rendezvous client, the sequence
`insert_node(0,1); insert_point(5); insert_node(0,1)` leaves point `5`
tracked in the point table with owner `0`, yet present in no node's
bucket: re-inserting a present node replaces its bucket by only the newly
moved points. -/
theorem rendezvous_reinsert_drops_tracked_point :
    (((Client.empty.insertNode hs₀ 0 1).bind (fun c => c.insertPoint hs₀ 5)).bind
        (fun c => c.insertNode hs₀ 0 1)).map
      (fun c => (c.points.lookup 5,
        c.nodes.entries.countP (fun e => decide (5 ∈ e.2)))) =
    some (some (0, 25), 0) := by decide

end rendezvous

namespace consistent

/-- `consistent::Client`: the ring plus `data : BTreeMap<u64, HashSet<&U>>`
keyed by wheel position (buckets as duplicate-free lists). -/
structure Client where
  ring : Ring
  data : AList (fun _ : Nat => List Nat)

/-- One replica hash's processing inside `consistent::Client::remove_node`:
if the wheel no longer owns the hash, drain its bucket into the successor
bucket found in `data` after the removal, panicking when none remains. -/
def removeStep (hs : HashScheme) (id : Nat) (r' : Ring)
    (d : AList (fun _ : Nat => List Nat)) (i : Nat) :
    Except Panic (AList (fun _ : Nat => List Nat)) :=
  if (r'.nodes.lookup (hs.chash id i)).isSome then .ok d
  else
    match d.lookup (hs.chash id i) with
    | none => .ok d
    | some pts =>
        match succKey (d.erase (hs.chash id i)).keys (hs.chash id i) with
        | none => .error .emptyRingAfterRemoval
        | some k =>
            match (d.erase (hs.chash id i)).lookup k with
            | none => .error .other
            | some b =>
                .ok ((d.erase (hs.chash id i)).insert k (pts.foldl rendezvous.slInsert b))

/-- `consistent::Client::remove_node`: read the replica count (panicking
for an unknown node), remove the node from the ring, then drain each
no-longer-owned bucket into its successor. -/
def Client.removeNode (hs : HashScheme) (cl : Client) (id : Nat) : Except Panic Client :=
  match cl.ring.replicas.lookup id with
  | none => .error .other
  | some reps =>
      match cl.ring.removeNode hs id with
      | none => .error .other
      | some r' =>
          ((List.range reps).foldlM (removeStep hs id r') cl.data).map (fun d => ⟨r', d⟩)

end consistent

namespace mpc

/-- The prime `0xFFFF_FFFF_FFFF_FFC5` of `mpc.rs`. -/
def PRIME : Nat := 0xFFFFFFFFFFFFFFC5

/-- `mpc::Ring`: the wheel `nodes : BTreeMap<u64, &T>` keyed by
`gen_hash(id)`, plus the probe count `hash_count`. -/
structure Ring where
  nodes : NMap
  hashCount : Nat

/-- `mpc::Ring::new`; `none` models the `assert!(hash_count > 0)` panic. -/
def Ring.new (k : Nat) : Option Ring :=
  if k = 0 then none else some ⟨∅, k⟩

/-- `mpc::Ring::insert_node`: `nodes.insert(gen_hash(id), id)`. -/
def Ring.insertNode (hs : HashScheme) (r : Ring) (id : Nat) : Ring :=
  ⟨r.nodes.insert (hs.hashNode id) id, r.hashCount⟩

/-- `mpc::Ring::remove_node`: `nodes.remove(&gen_hash(id))`. -/
def Ring.removeNode (hs : HashScheme) (r : Ring) (id : Nat) : Ring :=
  ⟨r.nodes.erase (hs.hashNode id), r.hashCount⟩

/-- The `i`-th probe of `get_node`:
`hashes[0].wrapping_add((i as u64).wrapping_mul(hashes[1]) % PRIME)`. -/
def probe (h0 h1 i : Nat) : Nat :=
  (h0 + (i * h1) % 2 ^ 64 % PRIME) % 2 ^ 64

/-- `mpc::Ring::get_distance`:
`if hash > next_hash { next_hash + (u64::MAX - hash) } else { next_hash - hash }`. -/
def getDistance (hash nextHash : Nat) : Nat :=
  if nextHash < hash then nextHash + (2 ^ 64 - 1 - hash) else nextHash - hash

/-- The `(distance, next_hash)` pairs of the probe iterator in
`get_node`, one per probe index; `none` is the `get_next_hash` panic on an
empty wheel. -/
def distEntries (r : Ring) (h0 h1 : Nat) : List Nat → Option (List (Nat × Nat))
  | [] => some []
  | i :: rest =>
      match succKey r.nodes.keys (probe h0 h1 i) with
      | none => none
      | some nh =>
          (distEntries r h0 h1 rest).map
            (fun l => (getDistance (probe h0 h1 i) nh, nh) :: l)

/-- Rust `Iterator::min` on `(u64, u64)` pairs: the first minimum under
the lexicographic order. -/
def lexMinFold (l : List (Nat × Nat)) : Option (Nat × Nat) :=
  l.foldl
    (fun acc x =>
      match acc with
      | none => some x
      | some a => if x.1 < a.1 ∨ (x.1 = a.1 ∧ x.2 < a.2) then some x else some a)
    none

/-- `mpc::Ring::get_node`; `none` models either `.expect` panic. -/
def Ring.getNode (hs : HashScheme) (r : Ring) (p : Nat) : Option Nat :=
  (distEntries r (hs.hashA p) (hs.hashB p) (List.range r.hashCount)).bind
    (fun l => (lexMinFold l).bind (fun m => r.nodes.lookup m.2))

/-- C3 counterexample: the probe the code computes is
`h0 +₂₆₄ ((i·h1 mod 2⁶⁴) mod P)`, not `(h0 + i·h1) mod P`, and the
wrapped distance is `next + (2⁶⁴ − 1 − probe)`, one less than
`next − probe` in unsigned modular arithmetic. -/
theorem mpc_probe_distance_counterexample :
    (probe (2 ^ 64 - 1) 1 1 ≠ ((2 ^ 64 - 1) + 1 * 1) % PRIME) ∧
    (getDistance 1 0 ≠ (0 + 2 ^ 64 - 1) % 2 ^ 64) := by decide

/-- Lexicographic `≤` with the first component strict-or-equal, used to
state minimality of the chosen probe. -/
def lexLeP (m x : Nat × Nat) : Prop :=
  m.1 < x.1 ∨ (m.1 = x.1 ∧ m.2 ≤ x.2)

theorem lexMinFold_go (l : List (Nat × Nat)) :
    ∀ a : Nat × Nat,
      ∃ m, l.foldl
          (fun acc x =>
            match acc with
            | none => some x
            | some a => if x.1 < a.1 ∨ (x.1 = a.1 ∧ x.2 < a.2) then some x else some a)
          (some a) = some m ∧
        (m = a ∨ m ∈ l) ∧ lexLeP m a ∧ ∀ x ∈ l, lexLeP m x := by
  induction l with
  | nil =>
      intro a
      exact ⟨a, rfl, Or.inl rfl, Or.inr ⟨rfl, le_refl _⟩, by simp⟩
  | cons x rest ih =>
      intro a
      by_cases hc : x.1 < a.1 ∨ (x.1 = a.1 ∧ x.2 < a.2)
      · obtain ⟨m, hm, hmem, hax, hall⟩ := ih x
        refine ⟨m, ?_, ?_, ?_, ?_⟩
        · simp only [List.foldl_cons, if_pos hc]
          exact hm
        · rcases hmem with rfl | h
          · exact Or.inr (List.mem_cons_self _ _)
          · exact Or.inr (List.mem_cons_of_mem _ h)
        · rcases hax with h1 | ⟨h1, h2⟩ <;> rcases hc with h3 | ⟨h3, h4⟩ <;>
            unfold lexLeP <;> omega
        · intro y hy
          rcases List.mem_cons.mp hy with rfl | hy'
          · exact hax
          · exact hall y hy'
      · obtain ⟨m, hm, hmem, hax, hall⟩ := ih a
        refine ⟨m, ?_, ?_, hax, ?_⟩
        · simp only [List.foldl_cons, if_neg hc]
          exact hm
        · rcases hmem with rfl | h
          · exact Or.inl rfl
          · exact Or.inr (List.mem_cons_of_mem _ h)
        · intro y hy
          rcases List.mem_cons.mp hy with rfl | hy'
          · have hay : lexLeP a y := by
              unfold lexLeP
              rcases Nat.lt_trichotomy a.1 y.1 with h1 | h1 | h1
              · exact Or.inl h1
              · refine Or.inr ⟨h1, ?_⟩
                by_contra h2
                exact hc (Or.inr ⟨h1.symm, by omega⟩)
              · exact absurd (Or.inl h1) hc
            rcases hay with h1 | ⟨h1, h2⟩ <;> rcases hax with h3 | ⟨h3, h4⟩ <;>
              unfold lexLeP <;> omega
          · exact hall y hy'

theorem lexMinFold_spec {l : List (Nat × Nat)} (hne : l ≠ []) :
    ∃ m, lexMinFold l = some m ∧ m ∈ l ∧ ∀ x ∈ l, lexLeP m x := by
  rcases l with _ | ⟨a, rest⟩
  · exact absurd rfl hne
  · obtain ⟨m, hm, hmem, hax, hall⟩ := lexMinFold_go rest a
    refine ⟨m, hm, ?_, ?_⟩
    · rcases hmem with rfl | h
      · exact List.mem_cons_self _ _
      · exact List.mem_cons_of_mem _ h
    · intro x hx
      rcases List.mem_cons.mp hx with rfl | hx'
      · exact hax
      · exact hall x hx'

theorem distEntries_spec (r : Ring) (h0 h1 : Nat) (hne : r.nodes.keys ≠ []) :
    ∀ is : List Nat,
      ∃ l, distEntries r h0 h1 is = some l ∧
        (∀ x ∈ l, ∃ i ∈ is, succKey r.nodes.keys (probe h0 h1 i) = some x.2 ∧
          x.1 = getDistance (probe h0 h1 i) x.2) ∧
        (∀ i ∈ is, ∃ nh, succKey r.nodes.keys (probe h0 h1 i) = some nh ∧
          (getDistance (probe h0 h1 i) nh, nh) ∈ l) ∧
        (is ≠ [] → l ≠ []) := by
  intro is
  induction is with
  | nil => exact ⟨[], rfl, by simp, by simp, fun h => absurd rfl h⟩
  | cons i rest ih =>
      have hsome := succKey_isSome_of_ne_nil hne (probe h0 h1 i)
      rcases hsk : succKey r.nodes.keys (probe h0 h1 i) with _ | nh
      · rw [hsk] at hsome; cases hsome
      · obtain ⟨l, hl, hfwd, hbwd, _⟩ := ih
        refine ⟨(getDistance (probe h0 h1 i) nh, nh) :: l, ?_, ?_, ?_, fun _ => by simp⟩
        · unfold distEntries
          rw [hsk, hl]
          rfl
        · intro x hx
          rcases List.mem_cons.mp hx with rfl | hx'
          · exact ⟨i, List.mem_cons_self _ _, hsk, rfl⟩
          · obtain ⟨j, hj, h1', h2'⟩ := hfwd x hx'
            exact ⟨j, List.mem_cons_of_mem _ hj, h1', h2'⟩
        · intro j hj
          rcases List.mem_cons.mp hj with rfl | hj'
          · exact ⟨nh, hsk, List.mem_cons_self _ _⟩
          · obtain ⟨nh', h1', h2'⟩ := hbwd j hj'
            exact ⟨nh', h1', List.mem_cons_of_mem _ h2'⟩

/-- C3 (amended): on a non-empty ring with probe count `k ≥ 1`,
`get_node` computes for every `i < k` the probe
`h0 +₂₆₄ ((i·h1 mod 2⁶⁴) mod P)`, finds the next wheel entry `≥` the
probe with wrap-around, forms the distance
`next − probe` (or `next + (2⁶⁴ − 1 − probe)` when the search wrapped),
and returns the wheel node at the `(distance, next)` pair that is first
lexicographic minimum over all probes. -/
theorem mpc_getNode_spec (hs : HashScheme) (r : Ring) (p : Nat)
    (hk : 1 ≤ r.hashCount) (hne : r.nodes.keys ≠ []) :
    ∃ l m id,
      distEntries r (hs.hashA p) (hs.hashB p) (List.range r.hashCount) = some l ∧
      (∀ x ∈ l, ∃ i < r.hashCount,
        succKey r.nodes.keys (probe (hs.hashA p) (hs.hashB p) i) = some x.2 ∧
        x.1 = getDistance (probe (hs.hashA p) (hs.hashB p) i) x.2) ∧
      (∀ i < r.hashCount, ∃ nh,
        succKey r.nodes.keys (probe (hs.hashA p) (hs.hashB p) i) = some nh ∧
        (getDistance (probe (hs.hashA p) (hs.hashB p) i) nh, nh) ∈ l) ∧
      lexMinFold l = some m ∧ m ∈ l ∧ (∀ x ∈ l, lexLeP m x) ∧
      r.getNode hs p = some id ∧ r.nodes.lookup m.2 = some id := by
  obtain ⟨l, hl, hfwd, hbwd, hlne⟩ :=
    distEntries_spec r (hs.hashA p) (hs.hashB p) hne (List.range r.hashCount)
  have hrne : List.range r.hashCount ≠ [] := by
    intro h
    have := List.range_eq_nil.mp h
    omega
  obtain ⟨m, hm, hmem, hmin⟩ := lexMinFold_spec (hlne hrne)
  obtain ⟨i, _, hsk, _⟩ := hfwd m hmem
  have hlk : (r.nodes.lookup m.2).isSome := by
    rw [AList.lookup_isSome, AList.mem_keys]
    exact succKey_mem hsk
  rcases hid : r.nodes.lookup m.2 with _ | id
  · rw [hid] at hlk; cases hlk
  · refine ⟨l, m, id, hl, ?_, ?_, hm, hmem, hmin, ?_, hid⟩
    · intro x hx
      obtain ⟨j, hj, h1', h2'⟩ := hfwd x hx
      exact ⟨j, List.mem_range.mp hj, h1', h2'⟩
    · intro j hj
      exact hbwd j (List.mem_range.mpr hj)
    · show (distEntries r (hs.hashA p) (hs.hashB p) (List.range r.hashCount)).bind
        (fun l => (lexMinFold l).bind (fun m => r.nodes.lookup m.2)) = some id
      rw [hl]
      show (lexMinFold l).bind (fun m => r.nodes.lookup m.2) = some id
      rw [hm]
      exact hid

/-- A concrete MPC ring with nodes `0` and `1` and probe count 2. -/
def mring₁ : Ring :=
  (Ring.insertNode hs₀ (Ring.insertNode hs₀ ⟨∅, 2⟩ 0) 1)

/-- Witness for `mpc_getNode_spec` at the concrete ring `mring₁`. -/
theorem mpc_getNode_spec_witness :
    1 ≤ mring₁.hashCount ∧ mring₁.nodes.keys ≠ [] ∧
      (∃ l m id,
        distEntries mring₁ (hs₀.hashA 5) (hs₀.hashB 5) (List.range mring₁.hashCount) =
          some l ∧
        (∀ x ∈ l, ∃ i < mring₁.hashCount,
          succKey mring₁.nodes.keys (probe (hs₀.hashA 5) (hs₀.hashB 5) i) = some x.2 ∧
          x.1 = getDistance (probe (hs₀.hashA 5) (hs₀.hashB 5) i) x.2) ∧
        (∀ i < mring₁.hashCount, ∃ nh,
          succKey mring₁.nodes.keys (probe (hs₀.hashA 5) (hs₀.hashB 5) i) = some nh ∧
          (getDistance (probe (hs₀.hashA 5) (hs₀.hashB 5) i) nh, nh) ∈ l) ∧
        lexMinFold l = some m ∧ m ∈ l ∧ (∀ x ∈ l, lexLeP m x) ∧
        mring₁.getNode hs₀ 5 = some id ∧ mring₁.nodes.lookup m.2 = some id) :=
  ⟨by decide, by decide, mpc_getNode_spec hs₀ mring₁ 5 (by decide) (by decide)⟩

end mpc

namespace jump

/-- Base-2 logarithm with explicit fuel (enough for 64-bit values). -/
def log2f : Nat → Nat → Nat
  | 0, _ => 0
  | fuel + 1, n => if n < 2 then 0 else log2f fuel (n / 2) + 1

/-- Round half to even: the integer nearest `p / q`, ties to even. -/
def rhe (p q : Nat) : Nat :=
  if 2 * (p % q) < q then p / q
  else if q < 2 * (p % q) then p / q + 1
  else if p / q % 2 = 0 then p / q else p / q + 1

/-- Exact value of `trunc(f64(a) / f64(b))` for `a ≥ b ≥ 1` with `a` and
`b` exactly representable in an IEEE-754 double (true of every division
the jump loop performs: `a = (i+1)·2³¹` with `i+1 ≤ 2³¹`, and
`b = (h >> 33) + 1 ≤ 2³¹`): the quotient is rounded to a 53-bit
significand, nearest-ties-to-even, then truncated. -/
def f64DivTrunc (a b : Nat) : Nat :=
  if b = 0 then 0
  else if a < b then 0
  else
    let e := log2f 64 (a / b)
    let m := if e ≤ 52 then rhe (a <<< (52 - e)) b else rhe a (b <<< (e - 52))
    if 52 ≤ e then m <<< (e - 52) else m >>> (52 - e)

/-- The loop of `jump::Ring::get_node`, one recursive call per iteration:
`i = j; h = h·2862933555777941757 + 1 (wrapping); j = trunc(f64((i+1)·2³¹) /
f64((h >> 33) + 1))` while `j < nodes`.  The state is threaded as
`(h, i, j)`; the fuel `nodes + 1` bounds the iteration count since `j`
grows by at least one per step.  (The Rust `i` starts at `-1`, but with
`nodes ≥ 1` — asserted by the constructor — the first iteration
overwrites it before any use.) -/
def jumpLoop (nodes : Nat) : Nat → Nat → Nat → Nat → Nat
  | 0, _, i, _ => i
  | fuel + 1, h, i, j =>
      if j < nodes then
        jumpLoop nodes fuel ((h * 2862933555777941757 + 1) % 2 ^ 64) j
          (f64DivTrunc ((j + 1) * 2 ^ 31)
            ((((h * 2862933555777941757 + 1) % 2 ^ 64) >>> 33) + 1))
      else i

/-- `jump::Ring::get_node` as a function of the node count and the key's
64-bit hash `gen_hash(key)`. -/
def getNode (nodes keyHash : Nat) : Nat :=
  jumpLoop nodes (nodes + 1) keyHash 0 0

/-- Modelled from the spec: the LCG-walk pseudocode of §4.3, verbatim —
wrapping 64-bit multiply by 2862933555777941757 plus 1, and
`j = ⌊(i+1)·2³¹ / ((h≫33)+1)⌋` in truncating f64 arithmetic. -/
def specLoop (nodes : Nat) : Nat → Nat → Nat → Nat → Nat
  | 0, _, i, _ => i
  | fuel + 1, h, i, j =>
      if j < nodes then
        specLoop nodes fuel ((h * 2862933555777941757 + 1) % 2 ^ 64) j
          (f64DivTrunc ((j + 1) * 2 ^ 31)
            ((((h * 2862933555777941757 + 1) % 2 ^ 64) >>> 33) + 1))
      else i

/-- Modelled from the spec: the whole §4.3 walk. -/
def specWalk (nodes keyHash : Nat) : Nat :=
  specLoop nodes (nodes + 1) keyHash 0 0

/-- 64-bit left rotation. -/
def rotl (x b : Nat) : Nat :=
  ((x <<< b) % 2 ^ 64) ||| (x >>> (64 - b))

/-- One SipHash round. -/
def sipRound (v : Nat × Nat × Nat × Nat) : Nat × Nat × Nat × Nat :=
  let v0 := (v.1 + v.2.1) % 2 ^ 64
  let v1 := rotl v.2.1 13
  let v1 := v1 ^^^ v0
  let v0 := rotl v0 32
  let v2 := (v.2.2.1 + v.2.2.2) % 2 ^ 64
  let v3 := rotl v.2.2.2 16
  let v3 := v3 ^^^ v2
  let v0 := (v0 + v3) % 2 ^ 64
  let v3 := rotl v3 21
  let v3 := v3 ^^^ v0
  let v2 := (v2 + v1) % 2 ^ 64
  let v1 := rotl v1 17
  let v1 := v1 ^^^ v2
  let v2 := rotl v2 32
  (v0, v1, v2, v3)

/-- A little-endian word from a byte list (first byte least significant). -/
def leWord (bytes : List Nat) : Nat :=
  bytes.foldr (fun b acc => b + 256 * acc) 0

/-- One message-word compression of SipHash-1-3 (`c = 1` round). -/
def sipCompress (v : Nat × Nat × Nat × Nat) (m : Nat) : Nat × Nat × Nat × Nat :=
  let v := (v.1, v.2.1, v.2.2.1, v.2.2.2 ^^^ m)
  let v := sipRound v
  (v.1 ^^^ m, v.2.1, v.2.2.1, v.2.2.2)

/-- SipHash-1-3 finalization (`d = 3` rounds) over the last partial word
and the length byte. -/
def sipFinal (v : Nat × Nat × Nat × Nat) (rem : List Nat) (len : Nat) : Nat :=
  let b := ((len % 256) <<< 56) ||| leWord rem
  let v := sipCompress v b
  let v := (v.1, v.2.1, v.2.2.1 ^^^ 0xff, v.2.2.2)
  let v := sipRound (sipRound (sipRound v))
  v.1 ^^^ v.2.1 ^^^ v.2.2.1 ^^^ v.2.2.2

/-- The word-consuming loop of SipHash, with fuel. -/
def sipLoop : Nat → (Nat × Nat × Nat × Nat) → List Nat → Nat → Nat
  | 0, v, bytes, len => sipFinal v bytes len
  | fuel + 1, v, bytes, len =>
      if 8 ≤ bytes.length then
        sipLoop fuel (sipCompress v (leWord (bytes.take 8))) (bytes.drop 8) len
      else sipFinal v bytes len

/-- SipHash-1-3 with keys `(k0, k1)` over a byte stream: the algorithm of
Rust's `DefaultHasher` (`SipHasher13` with both keys zero). -/
def sipHash13 (k0 k1 : Nat) (data : List Nat) : Nat :=
  sipLoop data.length
    (0x736f6d6570736575 ^^^ k0, 0x646f72616e646f6d ^^^ k1,
     0x6c7967656e657261 ^^^ k0, 0x7465646279746573 ^^^ k1)
    data data.length

/-- The byte stream Rust hashes for the `&str` `"foo"`: its UTF-8 bytes
followed by the `0xff` terminator written by `Hash for str`. -/
def fooBytes : List Nat := [0x66, 0x6f, 0x6f, 0xff]

/-- `gen_hash(&"foo")` under `BuildHasherDefault<DefaultHasher>`. -/
def fooDefaultHash : Nat := sipHash13 0 0 fooBytes

theorem jumpLoop_eq_specLoop (nodes : Nat) :
    ∀ fuel h i j, jumpLoop nodes fuel h i j = specLoop nodes fuel h i j := by
  intro fuel
  induction fuel with
  | zero => intro h i j; rfl
  | succ n ih =>
      intro h i j
      unfold jumpLoop specLoop
      by_cases hc : j < nodes
      · rw [if_pos hc, if_pos hc, ih]
      · rw [if_neg hc, if_neg hc]

/-- C6: `jump::Ring::get_node` implements exactly the LCG walk of the
specification (same wrapping 64-bit arithmetic and truncated f64
quotient), and with `N = 100` and the fixed default hasher
(`SipHash-1-3`, zero keys) it maps `"foo"` to ordinal `8`, inside
`[0, 100)`. -/
theorem jump_getNode_spec_and_foo :
    (∀ nodes keyHash, getNode nodes keyHash = specWalk nodes keyHash) ∧
    getNode 100 fooDefaultHash = 8 ∧ getNode 100 fooDefaultHash < 100 :=
  ⟨fun nodes keyHash => jumpLoop_eq_specLoop nodes (nodes + 1) keyHash 0 0,
   by decide, by decide⟩

end jump

namespace maglev

/-- The populate-loop state of `maglev::Ring::populate`: the lookup table
`entry` (meaningful on `[0, m)`, `none` standing for
`usize::max_value()`), the per-node cursors `next`, and the filled-slot
counter `i`. -/
structure PState where
  entry : Nat → Option Nat
  nextv : Nat → Nat
  filled : Nat

/-- The all-empty initial state of `populate`. -/
def initState : PState := ⟨fun _ => none, fun _ => 0, 0⟩

/-- Node `node`'s permutation entry `k`: `(offset + k·skip) mod m` with
`offset = H₁(node) mod m` and `skip = H₂(node) mod (m−1) + 1`. -/
def permAt (h1 h2 : Nat → Nat) (m node k : Nat) : Nat :=
  (h1 node % m + k * (h2 node % (m - 1) + 1)) % m

/-- The inner `while entry[c] != usize::MAX` scan of `populate`: advance
the cursor past claimed slots to the first unclaimed preference.  The
fuel `m − k` runs out exactly when the Rust code would index
`permutation[j][m]` out of bounds. -/
def findFree (entry : Nat → Option Nat) (h1 h2 : Nat → Nat) (m node : Nat) :
    Nat → Nat → Option Nat
  | 0, _ => none
  | fuel + 1, k =>
      if entry (permAt h1 h2 m node k) = none then some k
      else findFree entry h1 h2 m node fuel (k + 1)

/-- One node visit of `populate`: claim the node's next unclaimed slot,
advance its cursor, and count the fill. -/
def visit (h1 h2 : Nat → Nat) (m : Nat) (nodes : List Nat) (st : PState) (j : Nat) :
    Option PState :=
  match findFree st.entry h1 h2 m (nodes.getD j 0) (m - st.nextv j) (st.nextv j) with
  | none => none
  | some k =>
      some ⟨fun s => if s = permAt h1 h2 m (nodes.getD j 0) k then some j else st.entry s,
        fun j' => if j' = j then k + 1 else st.nextv j',
        st.filled + 1⟩

/-- One pass of the `for j in 0..n` loop of `populate`, with the
`if i == m break` early exit. -/
def roundFor (h1 h2 : Nat → Nat) (m : Nat) (nodes : List Nat) (st : PState) :
    List Nat → Option PState
  | [] => some st
  | j :: rest =>
      match visit h1 h2 m nodes st j with
      | none => none
      | some st' =>
          if st'.filled = m then some st'
          else roundFor h1 h2 m nodes st' rest

/-- The outer `while i < m` loop of `populate`, with fuel; exhausting the
fuel models non-termination. -/
def populateLoop (h1 h2 : Nat → Nat) (m : Nat) (nodes : List Nat) :
    Nat → PState → Option PState
  | 0, _ => none
  | fuel + 1, st =>
      if st.filled < m then
        match roundFor h1 h2 m nodes st (List.range nodes.length) with
        | none => none
        | some st' => populateLoop h1 h2 m nodes fuel st'
      else some st

/-- `maglev::Ring::populate` over a table of prime size `m` (the prime is
chosen by the external `primal::Sieve` collaborator), with fuel `m + 1`,
enough whenever every round makes progress. -/
def populate (h1 h2 : Nat → Nat) (m : Nat) (nodes : List Nat) : Option PState :=
  populateLoop h1 h2 m nodes (m + 1) initState

/-- `maglev::Ring::new`: `none` models the `assert!(!nodes.is_empty())`
panic; otherwise the ring is built by `populate` (via
`with_capacity_hint`, which itself has **no** emptiness assertion). -/
def ringNew (h1 h2 : Nat → Nat) (m : Nat) (nodes : List Nat) :
    Option (List Nat × PState) :=
  if nodes.isEmpty then none
  else (populate h1 h2 m nodes).map (fun st => (nodes, st))

/-- `maglev::Ring::get_node`: `nodes[lookup[H(key) mod m]]`, with the
out-of-bounds indexings surfaced as `none`. -/
def getNode (h1 : Nat → Nat) (m : Nat) (nodes : List Nat) (st : PState) (key : Nat) :
    Option Nat :=
  (st.entry (h1 key % m)).bind (fun v => nodes.get? v)

/-- C9: `Ring::new` on an empty node list panics on its assertion
(an `InvalidConfig`-style failure), but `Ring::with_capacity_hint` has no
such assertion and its `populate` spins forever: with zero nodes the
round makes no progress, so no amount of fuel completes the loop. -/
theorem maglev_empty_nodes_spec :
    (∀ (h1 h2 : Nat → Nat) (m : Nat), ringNew h1 h2 m [] = none) ∧
    (∀ (h1 h2 : Nat → Nat) (m : Nat) (fuel : Nat) (st : PState), st.filled < m →
      populateLoop h1 h2 m [] fuel st = none) := by
  constructor
  · intro h1 h2 m
    rfl
  · intro h1 h2 m fuel
    induction fuel with
    | zero => intro st _; rfl
    | succ f ih =>
        intro st hlt
        unfold populateLoop
        rw [if_pos hlt]
        show populateLoop h1 h2 m [] f st = none
        exact ih st hlt

/-- Witness for `maglev_empty_nodes_spec`'s loop statement. -/
theorem maglev_empty_nodes_spec_witness :
    (0 : Nat) < 5 ∧ populateLoop (fun x => x) (fun x => x) 5 [] 3 initState = none :=
  ⟨by decide, maglev_empty_nodes_spec.2 (fun x => x) (fun x => x) 5 3 initState (by decide)⟩

theorem permAt_lt (h1 h2 : Nat → Nat) (m node k : Nat) (hm : 0 < m) :
    permAt h1 h2 m node k < m :=
  Nat.mod_lt _ hm

theorem permAt_inj (h1 h2 : Nat → Nat) {m : Nat} (hm : m.Prime) (node : Nat) :
    ∀ {k k' : Nat}, k < m → k' < m →
      permAt h1 h2 m node k = permAt h1 h2 m node k' → k = k' := by
  intro k k' hk hk' heq
  have hm2 : 2 ≤ m := hm.two_le
  have hs_lt : h2 node % (m - 1) + 1 < m := by
    have : h2 node % (m - 1) < m - 1 := Nat.mod_lt _ (by omega)
    omega
  have hndvd : ¬ m ∣ (h2 node % (m - 1) + 1) := by
    intro hdvd
    have := Nat.le_of_dvd (Nat.succ_pos _) hdvd
    omega
  have hgcd : Nat.gcd m (h2 node % (m - 1) + 1) = 1 :=
    Nat.Coprime.gcd_eq_one ((Nat.Prime.coprime_iff_not_dvd hm).mpr hndvd)
  have hmod : k * (h2 node % (m - 1) + 1) ≡ k' * (h2 node % (m - 1) + 1) [MOD m] :=
    Nat.ModEq.add_left_cancel' (h1 node % m) heq
  have hkk : k ≡ k' [MOD m] := Nat.ModEq.cancel_right_of_coprime hgcd hmod
  have := hkk
  unfold Nat.ModEq at this
  rw [Nat.mod_eq_of_lt hk, Nat.mod_eq_of_lt hk'] at this
  exact this

theorem permAt_surj (h1 h2 : Nat → Nat) {m : Nat} (hm : m.Prime) (node : Nat) :
    ∀ s < m, ∃ k < m, permAt h1 h2 m node k = s := by
  intro s hs
  have himg : (Finset.range m).image (permAt h1 h2 m node) = Finset.range m := by
    apply Finset.eq_of_subset_of_card_le
    · intro x hx
      obtain ⟨k, _, rfl⟩ := Finset.mem_image.mp hx
      exact Finset.mem_range.mpr (permAt_lt h1 h2 m node k hm.pos)
    · rw [Finset.card_range, Finset.card_image_of_injOn, Finset.card_range]
      intro a ha b hb hab
      exact permAt_inj h1 h2 hm node (Finset.mem_range.mp ha) (Finset.mem_range.mp hb) hab
  have : s ∈ (Finset.range m).image (permAt h1 h2 m node) := by
    rw [himg]
    exact Finset.mem_range.mpr hs
  obtain ⟨k, hk, hks⟩ := Finset.mem_image.mp this
  exact ⟨k, Finset.mem_range.mp hk, hks⟩

theorem findFree_spec (entry : Nat → Option Nat) (h1 h2 : Nat → Nat) (m node : Nat) :
    ∀ (fuel start : Nat),
      (∃ k, start ≤ k ∧ k < start + fuel ∧ entry (permAt h1 h2 m node k) = none) →
      ∃ k, findFree entry h1 h2 m node fuel start = some k ∧ start ≤ k ∧
        k < start + fuel ∧ entry (permAt h1 h2 m node k) = none ∧
        ∀ k', start ≤ k' → k' < k → (entry (permAt h1 h2 m node k')).isSome := by
  intro fuel
  induction fuel with
  | zero =>
      rintro start ⟨k, h1', h2', _⟩
      omega
  | succ f ih =>
      intro start hex
      unfold findFree
      by_cases hfree : entry (permAt h1 h2 m node start) = none
      · rw [if_pos hfree]
        exact ⟨start, rfl, le_refl _, by omega, hfree, fun k' ha hb => by omega⟩
      · rw [if_neg hfree]
        have hex' : ∃ k, start + 1 ≤ k ∧ k < start + 1 + f ∧
            entry (permAt h1 h2 m node k) = none := by
          obtain ⟨k, hk1, hk2, hk3⟩ := hex
          have hne : k ≠ start := fun h => hfree (h ▸ hk3)
          exact ⟨k, by omega, by omega, hk3⟩
        obtain ⟨k, hfk, hk1, hk2, hk3, hall⟩ := ih (start + 1) hex'
        refine ⟨k, hfk, by omega, by omega, hk3, ?_⟩
        intro k' ha hb
        rcases Nat.eq_or_lt_of_le ha with rfl | h
        · exact Option.isSome_iff_ne_none.mpr hfree
        · exact hall k' h hb

/-- The `populate` loop invariant: the counter matches the number of
filled slots, slots and values stay in range, and every permutation
entry below a node's cursor is already claimed. -/
def INV (h1 h2 : Nat → Nat) (m : Nat) (nodes : List Nat) (st : PState) : Prop :=
  st.filled = ((Finset.range m).filter (fun s => (st.entry s).isSome)).card ∧
  (∀ s, (st.entry s).isSome → s < m) ∧
  (∀ s v, st.entry s = some v → v < nodes.length) ∧
  (∀ j, j < nodes.length → st.nextv j ≤ m ∧
    ∀ k, k < st.nextv j → (st.entry (permAt h1 h2 m (nodes.getD j 0) k)).isSome)

theorem INV_init (h1 h2 : Nat → Nat) (m : Nat) (nodes : List Nat) :
    INV h1 h2 m nodes initState := by
  refine ⟨?_, ?_, ?_, ?_⟩
  · simp [initState]
  · intro s hsome
    cases hsome
  · intro s v hv
    cases hv
  · intro j _
    exact ⟨Nat.zero_le _, fun k hk => by cases hk⟩

theorem visit_spec (h1 h2 : Nat → Nat) {m : Nat} (nodes : List Nat) (hm : m.Prime)
    (st : PState) (j : Nat) (hINV : INV h1 h2 m nodes st) (hfill : st.filled < m)
    (hj : j < nodes.length) :
    ∃ st', visit h1 h2 m nodes st j = some st' ∧ INV h1 h2 m nodes st' ∧
      st'.filled = st.filled + 1 := by
  obtain ⟨hcount, hdom, hval, hnodes⟩ := hINV
  obtain ⟨hnextle, hnextfilled⟩ := hnodes j hj
  have hfree_slot : ∃ s, s < m ∧ st.entry s = none := by
    by_contra h
    push_neg at h
    have hself : (Finset.range m).filter (fun s => (st.entry s).isSome) =
        Finset.range m := by
      rw [Finset.filter_eq_self]
      intro s hsm
      exact Option.isSome_iff_ne_none.mpr (h s (Finset.mem_range.mp hsm))
    rw [hself, Finset.card_range] at hcount
    omega
  obtain ⟨sfree, hsm, hsnone⟩ := hfree_slot
  obtain ⟨kf, hkfm, hkfperm⟩ := permAt_surj h1 h2 hm (nodes.getD j 0) sfree hsm
  have hkfge : st.nextv j ≤ kf := by
    by_contra h
    push_neg at h
    have := hnextfilled kf h
    rw [hkfperm, hsnone] at this
    cases this
  have hfexists : ∃ k, st.nextv j ≤ k ∧ k < st.nextv j + (m - st.nextv j) ∧
      st.entry (permAt h1 h2 m (nodes.getD j 0) k) = none :=
    ⟨kf, hkfge, by omega, by rw [hkfperm]; exact hsnone⟩
  obtain ⟨k, hfk, hk1, hk2, hk3, hscan⟩ :=
    findFree_spec st.entry h1 h2 m (nodes.getD j 0) (m - st.nextv j) (st.nextv j) hfexists
  have hkm : k < m := by omega
  have hc : permAt h1 h2 m (nodes.getD j 0) k < m :=
    permAt_lt h1 h2 m (nodes.getD j 0) k hm.pos
  have hmono : ∀ s, (st.entry s).isSome →
      (if s = permAt h1 h2 m (nodes.getD j 0) k then some j else st.entry s).isSome := by
    intro s hsome
    by_cases hsc : s = permAt h1 h2 m (nodes.getD j 0) k
    · rw [if_pos hsc]
      rfl
    · rw [if_neg hsc]
      exact hsome
  have hINV' : INV h1 h2 m nodes
      ⟨fun s => if s = permAt h1 h2 m (nodes.getD j 0) k then some j else st.entry s,
        fun j' => if j' = j then k + 1 else st.nextv j', st.filled + 1⟩ := by
    refine ⟨?_, ?_, ?_, ?_⟩
    · -- the counter matches the new filled-slot count
      show st.filled + 1 = ((Finset.range m).filter
        (fun s => (if s = permAt h1 h2 m (nodes.getD j 0) k then some j
          else st.entry s).isSome)).card
      have hset : (Finset.range m).filter
          (fun s => (if s = permAt h1 h2 m (nodes.getD j 0) k then some j
            else st.entry s).isSome) =
          insert (permAt h1 h2 m (nodes.getD j 0) k)
            ((Finset.range m).filter (fun s => (st.entry s).isSome)) := by
        ext x
        simp only [Finset.mem_filter, Finset.mem_insert, Finset.mem_range]
        constructor
        · rintro ⟨hx, hsome⟩
          by_cases hxc : x = permAt h1 h2 m (nodes.getD j 0) k
          · exact Or.inl hxc
          · rw [if_neg hxc] at hsome
            exact Or.inr ⟨hx, hsome⟩
        · rintro (rfl | ⟨hx, hsome⟩)
          · exact ⟨hc, by rw [if_pos rfl]; rfl⟩
          · refine ⟨hx, ?_⟩
            by_cases hxc : x = permAt h1 h2 m (nodes.getD j 0) k
            · rw [if_pos hxc]
              rfl
            · rw [if_neg hxc]
              exact hsome
      rw [hset, Finset.card_insert_of_not_mem, ← hcount]
      simp only [Finset.mem_filter, Finset.mem_range]
      rintro ⟨_, hsome⟩
      rw [hk3] at hsome
      cases hsome
    · intro s hsome
      have hsome' : (if s = permAt h1 h2 m (nodes.getD j 0) k then some j
          else st.entry s).isSome := hsome
      by_cases hsc : s = permAt h1 h2 m (nodes.getD j 0) k
      · rw [hsc]
        exact hc
      · rw [if_neg hsc] at hsome'
        exact hdom s hsome'
    · intro s v hv
      have hv' : (if s = permAt h1 h2 m (nodes.getD j 0) k then some j
          else st.entry s) = some v := hv
      by_cases hsc : s = permAt h1 h2 m (nodes.getD j 0) k
      · rw [if_pos hsc] at hv'
        cases hv'
        exact hj
      · rw [if_neg hsc] at hv'
        exact hval s v hv'
    · intro j' hj'
      by_cases hjj : j' = j
      · subst hjj
        refine ⟨?_, ?_⟩
        · show (if j' = j' then k + 1 else st.nextv j') ≤ m
          rw [if_pos rfl]
          omega
        · intro k'' hk''
          replace hk'' : k'' < (if j' = j' then k + 1 else st.nextv j') := hk''
          rw [if_pos rfl] at hk''
          show (if permAt h1 h2 m (nodes.getD j' 0) k'' =
              permAt h1 h2 m (nodes.getD j' 0) k then some j'
            else st.entry (permAt h1 h2 m (nodes.getD j' 0) k'')).isSome
          rcases Nat.lt_or_ge k'' (st.nextv j') with hlt | hge
          · exact hmono _ (hnextfilled k'' hlt)
          · rcases Nat.lt_or_ge k'' k with hlt2 | hge2
            · exact hmono _ (hscan k'' hge hlt2)
            · have hke : k'' = k := by omega
              subst hke
              rw [if_pos rfl]
              rfl
      · refine ⟨?_, ?_⟩
        · show (if j' = j then k + 1 else st.nextv j') ≤ m
          rw [if_neg hjj]
          exact (hnodes j' hj').1
        · intro k'' hk''
          replace hk'' : k'' < (if j' = j then k + 1 else st.nextv j') := hk''
          rw [if_neg hjj] at hk''
          exact hmono _ ((hnodes j' hj').2 k'' hk'')
  exact ⟨_, by unfold visit; rw [hfk], hINV', rfl⟩

theorem roundFor_spec (h1 h2 : Nat → Nat) {m : Nat} (nodes : List Nat) (hm : m.Prime) :
    ∀ (js : List Nat) (st : PState), (∀ j ∈ js, j < nodes.length) →
      INV h1 h2 m nodes st → st.filled < m →
      ∃ st', roundFor h1 h2 m nodes st js = some st' ∧ INV h1 h2 m nodes st' ∧
        st'.filled = min m (st.filled + js.length) := by
  intro js
  induction js with
  | nil =>
      intro st _ hINV hfill
      refine ⟨st, rfl, hINV, ?_⟩
      simp only [List.length_nil]
      omega
  | cons j rest ih =>
      intro st hjs hINV hfill
      obtain ⟨st1, hst1, hINV1, hfl1⟩ :=
        visit_spec h1 h2 nodes hm st j hINV hfill (hjs j (List.mem_cons_self _ _))
      unfold roundFor
      simp only [hst1]
      by_cases hdone : st1.filled = m
      · rw [if_pos hdone]
        refine ⟨st1, rfl, hINV1, ?_⟩
        rw [hdone]
        rw [hfl1] at hdone
        have : m ≤ st.filled + (rest.length + 1) := by omega
        rw [List.length_cons, Nat.min_eq_left this]
      · rw [if_neg hdone]
        have hfill1 : st1.filled < m := by
          rw [hfl1]
          rw [hfl1] at hdone
          omega
        obtain ⟨st', hst', hINV', hfl'⟩ := ih st1
          (fun j' hj' => hjs j' (List.mem_cons_of_mem _ hj')) hINV1 hfill1
        refine ⟨st', hst', hINV', ?_⟩
        rw [hfl', hfl1, List.length_cons]
        omega

theorem populateLoop_spec (h1 h2 : Nat → Nat) {m : Nat} (nodes : List Nat)
    (hm : m.Prime) (hn : nodes ≠ []) :
    ∀ (fuel : Nat) (st : PState), INV h1 h2 m nodes st → st.filled ≤ m →
      m - st.filled + 1 ≤ fuel →
      ∃ st', populateLoop h1 h2 m nodes fuel st = some st' ∧
        INV h1 h2 m nodes st' ∧ st'.filled = m := by
  intro fuel
  induction fuel with
  | zero => omega
  | succ f ih =>
      intro st hINV hle hfuel
      unfold populateLoop
      by_cases hfill : st.filled < m
      · rw [if_pos hfill]
        have hlen : 1 ≤ nodes.length := by
          rcases nodes with _ | _
          · exact absurd rfl hn
          · simp
        obtain ⟨st1, hst1, hINV1, hfl1⟩ := roundFor_spec h1 h2 nodes hm
          (List.range nodes.length) st (fun j hj => List.mem_range.mp hj) hINV hfill
        simp only [hst1]
        have hprog : st.filled + 1 ≤ st1.filled ∧ st1.filled ≤ m := by
          rw [hfl1, List.length_range]
          omega
        exact ih st1 hINV1 hprog.2 (by omega)
      · rw [if_neg hfill]
        exact ⟨st, rfl, hINV, by omega⟩

/-- C10: for every non-empty node list and a prime table size `m` (as
produced by the sieve from any `capacity_hint ≥ 1`), `populate`
terminates with every slot of the lookup table holding a node index
below the node count — each node's permutation visits all `m` slots —
and `get_node` therefore performs only in-bounds indexing and returns an
element of the node list for every key. -/
theorem maglev_populate_getNode_spec (h1 h2 : Nat → Nat) (m : Nat) (nodes : List Nat)
    (hm : m.Prime) (hn : nodes ≠ []) :
    ∃ st, populate h1 h2 m nodes = some st ∧
      (∀ s, s < m → ∃ v, st.entry s = some v ∧ v < nodes.length) ∧
      (∀ key, ∃ nd, getNode h1 m nodes st key = some nd ∧ nd ∈ nodes) := by
  obtain ⟨st, hloop, hINV, hfilled⟩ := populateLoop_spec h1 h2 nodes hm hn (m + 1)
    initState (INV_init h1 h2 m nodes) (Nat.zero_le _) (by omega)
  obtain ⟨hcount, hdom, hval, _⟩ := hINV
  have hall : ∀ s, s < m → (st.entry s).isSome := by
    intro s hs
    have hsub : (Finset.range m).filter (fun s => (st.entry s).isSome) =
        Finset.range m := by
      apply Finset.eq_of_subset_of_card_le (Finset.filter_subset _ _)
      rw [Finset.card_range, ← hcount, hfilled]
    have : s ∈ (Finset.range m).filter (fun s => (st.entry s).isSome) := by
      rw [hsub]
      exact Finset.mem_range.mpr hs
    exact (Finset.mem_filter.mp this).2
  refine ⟨st, hloop, ?_, ?_⟩
  · intro s hs
    have hsome := hall s hs
    cases hv : st.entry s with
    | none =>
        rw [hv] at hsome
        simp at hsome
    | some v => exact ⟨v, rfl, hval s v hv⟩
  · intro key
    have hs : h1 key % m < m := Nat.mod_lt _ hm.pos
    have hsome := hall _ hs
    cases hv : st.entry (h1 key % m) with
    | none =>
        rw [hv] at hsome
        simp at hsome
    | some v =>
        have hvlen : v < nodes.length := hval _ v hv
        refine ⟨nodes.get ⟨v, hvlen⟩, ?_, List.get_mem nodes v hvlen⟩
        unfold getNode
        rw [hv]
        show nodes.get? v = _
        rw [List.get?_eq_get hvlen]

/-- Witness for `maglev_populate_getNode_spec` at a concrete table. -/
theorem maglev_populate_getNode_spec_witness :
    Nat.Prime 7 ∧ ([10, 20] : List Nat) ≠ [] ∧
      (∃ st, populate (fun x => x) (fun x => 3 * x) 7 [10, 20] = some st ∧
        (∀ s, s < 7 → ∃ v, st.entry s = some v ∧ v < ([10, 20] : List Nat).length) ∧
        (∀ key, ∃ nd, getNode (fun x => x) 7 [10, 20] st key = some nd ∧
          nd ∈ ([10, 20] : List Nat))) :=
  ⟨by norm_num, by decide,
   maglev_populate_getNode_spec (fun x => x) (fun x => 3 * x) 7 [10, 20]
     (by norm_num) (by decide)⟩

end maglev

/-- The comparator that both `carp::Ring::get_node` and
`weighted_rendezvous::Ring::get_node` pass to `max_by`: the `n == m`
branch compares the whole `(score, id)` pairs for equality — so it never
fires for two entries with distinct ids — and falls back to comparing the
ids; every other pair is ordered by the scores' `partial_cmp`, which is
total on the non-NaN scores the code asserts. -/
noncomputable def cmpPair (n m : ℝ × Nat) : Ordering :=
  if n = m then compare n.2 m.2 else compare n.1 m.1

/-- Rust's `Iterator::max_by`: a fold that keeps the accumulator only
when it compares strictly greater, so the last of several maximal
elements wins. -/
def maxBy (cmp : ℝ × Nat → ℝ × Nat → Ordering) :
    List (ℝ × Nat) → Option (ℝ × Nat)
  | [] => none
  | x :: xs => some (xs.foldl (fun acc y => if cmp acc y = .gt then acc else y) x)

theorem maxBy_cons (cmp : ℝ × Nat → ℝ × Nat → Ordering) (x : ℝ × Nat)
    (xs : List (ℝ × Nat)) :
    maxBy cmp (x :: xs) =
      some (xs.foldl (fun acc y => if cmp acc y = .gt then acc else y) x) := rfl

theorem cmpPair_gt {x z : ℝ × Nat} (h : cmpPair x z = .gt) : z.1 < x.1 := by
  unfold cmpPair at h
  by_cases heq : x = z
  · rw [if_pos heq, heq] at h
    exact absurd (compare_gt_iff_gt.mp h) (lt_irrefl _)
  · rw [if_neg heq] at h
    exact compare_gt_iff_gt.mp h

theorem cmpPair_not_gt {x z : ℝ × Nat} (h : cmpPair x z ≠ .gt) : x.1 ≤ z.1 := by
  by_cases heq : x = z
  · exact le_of_eq (congrArg Prod.fst heq)
  · unfold cmpPair at h
    rw [if_neg heq] at h
    exact le_of_not_lt (fun hlt => h (compare_gt_iff_gt.mpr hlt))

/-- Where `max_by` leaves its result among ties: the scanned list splits
around the returned element, with everything before it scoring no higher
and everything **after** it scoring strictly lower — the result is the
last element attaining the maximum score. -/
theorem maxBy_fold_last (xs : List (ℝ × Nat)) :
    ∀ x : ℝ × Nat, ∃ l₁ l₂,
      x :: xs =
        l₁ ++ (xs.foldl (fun acc y => if cmpPair acc y = .gt then acc else y) x) :: l₂ ∧
      (∀ y ∈ l₁,
        y.1 ≤ (xs.foldl (fun acc y => if cmpPair acc y = .gt then acc else y) x).1) ∧
      (∀ y ∈ l₂,
        y.1 < (xs.foldl (fun acc y => if cmpPair acc y = .gt then acc else y) x).1) := by
  induction xs with
  | nil =>
      intro x
      exact ⟨[], [], rfl, fun y hy => absurd hy (List.not_mem_nil y),
        fun y hy => absurd hy (List.not_mem_nil y)⟩
  | cons z zs ih =>
      intro x
      simp only [List.foldl_cons]
      by_cases h : cmpPair x z = .gt
      · rw [if_pos h]
        have hzx : z.1 < x.1 := cmpPair_gt h
        obtain ⟨l₁, l₂, hsplit, hle, hlt⟩ := ih x
        have hxr : x.1 ≤
            (zs.foldl (fun acc y => if cmpPair acc y = .gt then acc else y) x).1 := by
          cases l₁ with
          | nil =>
              rw [List.nil_append] at hsplit
              injection hsplit with h1 _
              exact le_of_eq (congrArg Prod.fst h1)
          | cons a t =>
              rw [List.cons_append] at hsplit
              injection hsplit with h1 _
              rw [show x.1 = a.1 from congrArg Prod.fst h1]
              exact hle a (List.mem_cons_self a t)
        cases l₁ with
        | nil =>
            rw [List.nil_append] at hsplit
            injection hsplit with h1 h2
            refine ⟨[], z :: zs, ?_, fun y hy => absurd hy (List.not_mem_nil y), ?_⟩
            · rw [List.nil_append, ← h1]
            · intro y hy
              rcases List.mem_cons.mp hy with rfl | hy'
              · exact lt_of_lt_of_le hzx hxr
              · exact hlt y (h2 ▸ hy')
        | cons a t =>
            rw [List.cons_append] at hsplit
            injection hsplit with h1 h2
            refine ⟨x :: z :: t, l₂, ?_, ?_, hlt⟩
            · exact congrArg (fun l => x :: z :: l) h2
            · intro y hy
              rcases List.mem_cons.mp hy with rfl | hy'
              · exact hxr
              · rcases List.mem_cons.mp hy' with rfl | hy''
                · exact le_of_lt (lt_of_lt_of_le hzx hxr)
                · exact hle y (List.mem_cons_of_mem a hy'')
      · rw [if_neg h]
        have hxz : x.1 ≤ z.1 := cmpPair_not_gt h
        obtain ⟨l₁, l₂, hsplit, hle, hlt⟩ := ih z
        have hzr : z.1 ≤
            (zs.foldl (fun acc y => if cmpPair acc y = .gt then acc else y) z).1 := by
          cases l₁ with
          | nil =>
              rw [List.nil_append] at hsplit
              injection hsplit with h1 _
              exact le_of_eq (congrArg Prod.fst h1)
          | cons a t =>
              rw [List.cons_append] at hsplit
              injection hsplit with h1 _
              rw [show z.1 = a.1 from congrArg Prod.fst h1]
              exact hle a (List.mem_cons_self a t)
        refine ⟨x :: l₁, l₂, ?_, ?_, hlt⟩
        · exact congrArg (fun l => x :: l) hsplit
        · intro y hy
          rcases List.mem_cons.mp hy with rfl | hy'
          · exact le_trans hxz hzr
          · exact hle y hy'

namespace weighted_rendezvous

/-- The ring's per-node score `-w / ln(u / 2⁶⁴)` in exact real
arithmetic, for weight `w` and combined hash `u` (`u64::max_value() as
f64` rounds to `2⁶⁴` exactly; Mathlib's `Real.log 0 = 0` and
division-by-zero-is-zero give `score w 0 = 0`).  At `u = 0` this models
the code's f64 expression **bit-exactly**, with no rounding anywhere in
the pipeline: `0u64 as f64 = +0.0` exactly, `+0.0 / 2⁶⁴ = +0.0` exactly,
`ln(+0.0) = -∞` by IEEE 754, and a finite `-w` divided by `-∞` is a
zero.  For `u ≥ 1` it is the exact-real idealization of the f64
pipeline; no theorem below equates it with the program's f64 score at
such `u`. -/
noncomputable def score (w : ℝ) (u : Nat) : ℝ :=
  -w / Real.log ((u : ℝ) / 2 ^ 64)

/-- Spec-modelled (§4.6): the score with a zero combined hash replaced
by `u = 1` before taking the logarithm, as the spec words it. -/
noncomputable def scoreSpecced (w : ℝ) (u : Nat) : ℝ :=
  -w / Real.log (((max u 1 : ℕ) : ℝ) / 2 ^ 64)

/-- `weighted_rendezvous::Ring::get_node`, abstracted over the per-node
f64 score valuation `sc` and the `HashMap` iteration order `ids`: the
code maps every entry `(id, w)` to the pair
`(-w / ln(combine_hash(gen_hash(id), point_hash) as f64 / 2⁶⁴), id)` and
takes `max_by` with `cmpPair`.  The non-NaN f64 scores of any concrete
run embed into `ℝ` preserving order and equality, so every run of the
program is an instance of some `sc : Nat → ℝ`, and theorems quantified
over every `sc` cover the program's f64 arithmetic, rounding included. -/
noncomputable def getNode (sc : Nat → ℝ) (ids : List Nat) : Option Nat :=
  (maxBy cmpPair (ids.map (fun id => (sc id, id)))).map (fun p => p.2)

/-- C7, counterexample: at a zero combined hash the code's score is `0`
(bit-exact, see `score`: every f64 step of the pipeline is
IEEE-determined with no rounding at `u = 0`), while the spec's `u = 1`
substitution prescribes the strictly positive value
`-w / ln(2⁻⁶⁴) = w / (64·ln 2)` — the code performs no substitution. -/
theorem weighted_rendezvous_zero_hash_counterexample :
    score 1 0 = 0 ∧ 0 < scoreSpecced 1 0 ∧ score 1 0 ≠ scoreSpecced 1 0 := by
  have hpos : (0 : ℝ) < 64 * Real.log 2 :=
    mul_pos (by norm_num) (Real.log_pos (by norm_num))
  have hlog : Real.log (((max 0 1 : ℕ) : ℝ) / 2 ^ 64) = -(64 * Real.log 2) := by
    have hmax : ((max 0 1 : ℕ) : ℝ) = 1 := by norm_num
    rw [hmax, one_div, Real.log_inv, Real.log_pow]
    norm_num
  have h0 : score 1 0 = 0 := by
    unfold score
    simp
  have h1 : 0 < scoreSpecced 1 0 := by
    unfold scoreSpecced
    rw [hlog, div_neg, neg_div, neg_neg]
    exact div_pos one_pos hpos
  exact ⟨h0, h1, by rw [h0]; exact ne_of_lt h1⟩

/-- C7, amended: for **every** per-node score valuation — hence for the
f64 scores of every concrete run — `get_node` on a non-empty ring
returns a node of maximal score, and every entry after the returned one
in the iteration order scores strictly lower: ties go to the last tied
entry of the `HashMap` iteration order, not to the ascending-id order. -/
theorem weighted_rendezvous_getNode_spec (sc : Nat → ℝ) (ids : List Nat)
    (hne : ids ≠ []) :
    ∃ id ∈ ids, getNode sc ids = some id ∧
      (∀ j ∈ ids, sc j ≤ sc id) ∧
      ∃ l₁ l₂, ids.map (fun j => (sc j, j)) = l₁ ++ (sc id, id) :: l₂ ∧
        ∀ y ∈ l₂, y.1 < sc id := by
  cases ids with
  | nil => exact absurd rfl hne
  | cons i is =>
      obtain ⟨l₁, l₂, hsplit, hle, hlt⟩ :=
        maxBy_fold_last (is.map (fun j => (sc j, j))) (sc i, i)
      set r := (is.map (fun j => (sc j, j))).foldl
        (fun acc y => if cmpPair acc y = .gt then acc else y) (sc i, i) with hr
      have hmem : r ∈ (i :: is).map (fun j => (sc j, j)) := by
        simp only [List.map_cons]
        rw [hsplit]
        exact List.mem_append_right l₁ (List.mem_cons_self _ _)
      obtain ⟨id, hid, hfid⟩ := List.mem_map.mp hmem
      refine ⟨id, hid, ?_, ?_, ?_⟩
      · show (maxBy cmpPair ((i :: is).map (fun j => (sc j, j)))).map
            (fun p => p.2) = some id
        simp only [List.map_cons]
        rw [maxBy_cons, ← hr, ← hfid]
        rfl
      · intro j hj
        have hjmem : ((sc j, j) : ℝ × Nat) ∈ (i :: is).map (fun q => (sc q, q)) :=
          List.mem_map.mpr ⟨j, hj, rfl⟩
        rw [List.map_cons, hsplit] at hjmem
        have hle1 : sc j ≤ r.1 := by
          rcases List.mem_append.mp hjmem with hmem1 | hmem2
          · exact hle _ hmem1
          · rcases List.mem_cons.mp hmem2 with heq | hmem3
            · exact le_of_eq (congrArg Prod.fst heq)
            · exact le_of_lt (hlt _ hmem3)
        rw [← hfid] at hle1
        exact hle1
      · refine ⟨l₁, l₂, ?_, ?_⟩
        · rw [List.map_cons, hsplit, ← hfid]
        · intro y hy
          have hy1 := hlt y hy
          rw [← hfid] at hy1
          exact hy1

/-- Witness for `weighted_rendezvous_getNode_spec` at the program-shaped
valuation (weight `1`, combined hashes from `hs₀`, point `0`) over the
two-node iteration `[1, 2]`. -/
theorem weighted_rendezvous_getNode_spec_witness :
    ([1, 2] : List Nat) ≠ [] ∧
      ∃ id ∈ ([1, 2] : List Nat),
        getNode (fun j => score 1 (hs₀.combine (hs₀.hashNode j) (hs₀.hashPoint 0)))
            [1, 2] = some id ∧
        (∀ j ∈ ([1, 2] : List Nat),
          score 1 (hs₀.combine (hs₀.hashNode j) (hs₀.hashPoint 0)) ≤
            score 1 (hs₀.combine (hs₀.hashNode id) (hs₀.hashPoint 0))) ∧
        ∃ l₁ l₂, ([1, 2] : List Nat).map
              (fun j => (score 1 (hs₀.combine (hs₀.hashNode j) (hs₀.hashPoint 0)), j)) =
            l₁ ++ (score 1 (hs₀.combine (hs₀.hashNode id) (hs₀.hashPoint 0)), id) :: l₂ ∧
          ∀ y ∈ l₂,
            y.1 < score 1 (hs₀.combine (hs₀.hashNode id) (hs₀.hashPoint 0)) :=
  ⟨by decide, weighted_rendezvous_getNode_spec
    (fun j => score 1 (hs₀.combine (hs₀.hashNode j) (hs₀.hashPoint 0))) [1, 2]
    (by decide)⟩

end weighted_rendezvous

namespace carp

/-- A node of `carp::Ring`: its id, its cached hash (`gen_hash(id)`),
and the relative weight computed by `rebalance`. -/
structure CNode where
  id : Nat
  hash : Nat
  relative_weight : ℝ

/-- The score valuation of `carp::Ring::get_node` at point hash `ph`, in
exact real arithmetic:
`combine_hash(node.hash, ph) as f64 * node.relative_weight`.  It equals
the code's f64 score **bit-for-bit** whenever the combine value and the
product are exactly representable doubles — in particular for the small
integer combine values and unit weights of the counterexample below,
where no step of the pipeline rounds; for large hashes the code's
`as f64` rounds and this idealization may differ, which is why the
theorems below are quantified over an arbitrary valuation instead. -/
noncomputable def score (hs : HashScheme) (ph : Nat) (nd : CNode) : ℝ :=
  (hs.combine nd.hash ph : ℝ) * nd.relative_weight

/-- `carp::Ring::get_node` for a fixed point, abstracted over the
per-node f64 score valuation `sc`: the code maps every node to
`(combine_hash(node.hash, point_hash) as f64 * node.relative_weight, id)`
and takes `max_by` with `cmpPair`.  The non-NaN f64 scores of any
concrete run embed into `ℝ` preserving order and equality, so every run
of the program is an instance of some `sc : CNode → ℝ`, and theorems
quantified over every `sc` cover the program's f64 arithmetic, rounding
collapses included. -/
noncomputable def getNode (sc : CNode → ℝ) (nodes : List CNode) : Option Nat :=
  (maxBy cmpPair (nodes.map (fun nd => (sc nd, nd.id)))).map (fun p => p.2)

/-- C8, amended: on a non-empty ring `get_node` returns a node whose
score is maximal — for **every** score valuation, hence for the f64
scores of every concrete run — and every node after the returned one in
the ring's node vector scores strictly lower: a tie between distinct
nodes is won by the one listed last in the vector (Rust's `max_by` keeps
the last maximal element and the comparator's pair-equality branch never
fires for distinct ids), not by the one with the smaller id. -/
theorem carp_getNode_spec (sc : CNode → ℝ) (nodes : List CNode)
    (hne : nodes ≠ []) :
    ∃ nd ∈ nodes, getNode sc nodes = some nd.id ∧
      (∀ nd' ∈ nodes, sc nd' ≤ sc nd) ∧
      ∃ l₁ l₂, nodes.map (fun n => (sc n, n.id)) = l₁ ++ (sc nd, nd.id) :: l₂ ∧
        ∀ y ∈ l₂, y.1 < sc nd := by
  cases nodes with
  | nil => exact absurd rfl hne
  | cons n ns =>
      obtain ⟨l₁, l₂, hsplit, hle, hlt⟩ :=
        maxBy_fold_last (ns.map (fun q => (sc q, q.id))) (sc n, n.id)
      set r := (ns.map (fun q => (sc q, q.id))).foldl
        (fun acc y => if cmpPair acc y = .gt then acc else y) (sc n, n.id) with hr
      have hmem : r ∈ (n :: ns).map (fun q => (sc q, q.id)) := by
        simp only [List.map_cons]
        rw [hsplit]
        exact List.mem_append_right l₁ (List.mem_cons_self _ _)
      obtain ⟨nd, hnd, hfnd⟩ := List.mem_map.mp hmem
      refine ⟨nd, hnd, ?_, ?_, ?_⟩
      · show (maxBy cmpPair ((n :: ns).map (fun q => (sc q, q.id)))).map
            (fun p => p.2) = some nd.id
        simp only [List.map_cons]
        rw [maxBy_cons, ← hr, ← hfnd]
        rfl
      · intro nd' hnd'
        have hjmem : ((sc nd', nd'.id) : ℝ × Nat) ∈ (n :: ns).map (fun q => (sc q, q.id)) :=
          List.mem_map.mpr ⟨nd', hnd', rfl⟩
        rw [List.map_cons, hsplit] at hjmem
        have hle1 : sc nd' ≤ r.1 := by
          rcases List.mem_append.mp hjmem with hmem1 | hmem2
          · exact hle _ hmem1
          · rcases List.mem_cons.mp hmem2 with heq | hmem3
            · exact le_of_eq (congrArg Prod.fst heq)
            · exact le_of_lt (hlt _ hmem3)
        rw [← hfnd] at hle1
        exact hle1
      · refine ⟨l₁, l₂, ?_, ?_⟩
        · rw [List.map_cons, hsplit, ← hfnd]
        · intro y hy
          have hy1 := hlt y hy
          rw [← hfnd] at hy1
          exact hy1

/-- Witness for `carp_getNode_spec` on a one-node ring with the exact
valuation (which here coincides with the f64 computation). -/
theorem carp_getNode_spec_witness :
    ([⟨1, 0, 1⟩] : List CNode) ≠ [] ∧
      ∃ nd ∈ ([⟨1, 0, 1⟩] : List CNode),
        getNode (score hs₀ 0) [⟨1, 0, 1⟩] = some nd.id ∧
        (∀ nd' ∈ ([⟨1, 0, 1⟩] : List CNode), score hs₀ 0 nd' ≤ score hs₀ 0 nd) ∧
        ∃ l₁ l₂, ([⟨1, 0, 1⟩] : List CNode).map (fun n => (score hs₀ 0 n, n.id)) =
            l₁ ++ (score hs₀ 0 nd, nd.id) :: l₂ ∧
          ∀ y ∈ l₂, y.1 < score hs₀ 0 nd :=
  ⟨List.cons_ne_nil _ _, carp_getNode_spec (score hs₀ 0) [⟨1, 0, 1⟩]
    (List.cons_ne_nil _ _)⟩

/-- C8, counterexample: two nodes with the same cached hash and the same
unit relative weight.  At these inputs the code's f64 arithmetic is
exact — the combine value `Nat.pair 0 0 = 0` converts to f64 without
rounding and the multiplication by `1.0` is exact — so the valuation
`score hs₀ 0` is the program's f64 score bit-for-bit, and the two nodes
genuinely tie in the program.  `get_node` returns the node listed last
in the vector — id `2` for `[1, 2]` and id `1` for `[2, 1]` — so a score
tie is not broken in favour of the smaller id. -/
theorem carp_tie_counterexample :
    score hs₀ 0 ⟨1, 0, 1⟩ = score hs₀ 0 ⟨2, 0, 1⟩ ∧
    getNode (score hs₀ 0) [⟨1, 0, 1⟩, ⟨2, 0, 1⟩] = some 2 ∧
    getNode (score hs₀ 0) [⟨2, 0, 1⟩, ⟨1, 0, 1⟩] = some 1 := by
  refine ⟨rfl, ?_, ?_⟩
  · have hne : ((score hs₀ 0 ⟨1, 0, 1⟩, 1) : ℝ × Nat) ≠
        (score hs₀ 0 ⟨2, 0, 1⟩, 2) := by
      intro h
      have h2 := congrArg Prod.snd h
      simp at h2
    have hcmp : cmpPair (score hs₀ 0 ⟨1, 0, 1⟩, 1)
        (score hs₀ 0 ⟨2, 0, 1⟩, 2) = Ordering.eq := by
      unfold cmpPair
      rw [if_neg hne]
      exact compare_eq_iff_eq.mpr rfl
    show (maxBy cmpPair
        ([⟨1, 0, 1⟩, ⟨2, 0, 1⟩].map (fun nd => (score hs₀ 0 nd, nd.id)))).map
        (fun p => p.2) = some 2
    rw [List.map_cons, List.map_cons, List.map_nil, maxBy_cons,
      List.foldl_cons, List.foldl_nil]
    rw [if_neg (by rw [hcmp]; exact fun h => Ordering.noConfusion h)]
    rfl
  · have hne : ((score hs₀ 0 ⟨2, 0, 1⟩, 2) : ℝ × Nat) ≠
        (score hs₀ 0 ⟨1, 0, 1⟩, 1) := by
      intro h
      have h2 := congrArg Prod.snd h
      simp at h2
    have hcmp : cmpPair (score hs₀ 0 ⟨2, 0, 1⟩, 2)
        (score hs₀ 0 ⟨1, 0, 1⟩, 1) = Ordering.eq := by
      unfold cmpPair
      rw [if_neg hne]
      exact compare_eq_iff_eq.mpr rfl
    show (maxBy cmpPair
        ([⟨2, 0, 1⟩, ⟨1, 0, 1⟩].map (fun nd => (score hs₀ 0 nd, nd.id)))).map
        (fun p => p.2) = some 1
    rw [List.map_cons, List.map_cons, List.map_nil, maxBy_cons,
      List.foldl_cons, List.foldl_nil]
    rw [if_neg (by rw [hcmp]; exact fun h => Ordering.noConfusion h)]
    rfl

end carp

end HashRings
